import Mathlib

/-!
Shallow embedding of `src/sw/lib/source/neorv32_uart.c` (NEORV32 UART driver).

Bytes are modelled as `Nat` values (the C `char`/ASCII codes); C strings are
modelled as the list of bytes before the terminating NUL (byte 0) unless noted
otherwise.  32-bit machine arithmetic is made explicit with `% 4294967296`.
The UART transmit register is abstracted as a byte stream: each function that
writes to the UART is modelled as the list of bytes it sends.
-/

/-- The digit table `numbers` = "0123456789" of `__neorv32_uart_itoa`
(ASCII codes). -/
def numbers : List Nat := [48, 49, 50, 51, 52, 53, 54, 55, 56, 57]

/-- The conversion loop of `__neorv32_uart_itoa`:
`for (i=0; i<10; i++) { buffer1[i] = numbers[x%10]; x /= 10; }`.
`itoaDigits x n` is the list `buffer1[0], ..., buffer1[n-1]` for `n`
iterations (the source runs `n = 10`). -/
def itoaDigits (x : Nat) : Nat → List Nat
  | 0 => []
  | n + 1 => numbers.getD (x % 10) 0 :: itoaDigits (x / 10) n

/-- The leading-zero deletion loop of `__neorv32_uart_itoa`:
`for (i=9; i!=0; i--) { if (buffer1[i] == '0') buffer1[i] = '\0'; else break; }`.
Returns the mutated buffer together with the final value of `i`. -/
def blankLoop : List Nat → Nat → List Nat × Nat
  | buf, 0 => (buf, 0)
  | buf, i + 1 =>
    if buf.getD (i + 1) 0 = 48 then blankLoop (buf.set (i + 1) 0) i
    else (buf, i + 1)

/-- The reversal loop of `__neorv32_uart_itoa`:
`j = 0; do { if (buffer1[i] != '\0') res[j++] = buffer1[i]; } while (i--);`.
`revLoop buf i` is the list of bytes stored into `res[0..j-1]`. -/
def revLoop (buf : List Nat) : Nat → List Nat
  | 0 => if buf.getD 0 0 ≠ 0 then [buf.getD 0 0] else []
  | i + 1 =>
    (if buf.getD (i + 1) 0 ≠ 0 then [buf.getD (i + 1) 0] else []) ++ revLoop buf i

/-- `__neorv32_uart_itoa x res`: the bytes of the result string `res`
before the terminating NUL (`res[j] = '\0'`). -/
def itoa (x : Nat) : List Nat :=
  let buf := itoaDigits x 10
  let p := blankLoop buf 9
  revLoop p.1 p.2

/-- The symbol table `symbols` = "0123456789abcdef" of `__neorv32_uart_tohex`
(ASCII codes). -/
def symbols : List Nat :=
  [48, 49, 50, 51, 52, 53, 54, 55, 56, 57, 97, 98, 99, 100, 101, 102]

/-- `__neorv32_uart_tohex x res`: the loop writes
`res[7-i] = symbols[(x >> (4*i)) & 0x0f]` for `i = 0..7`, so position `j`
holds `symbols[(x >> (4*(7-j))) & 0x0f]`; `res[8] = '\0'`.  The result is the
8 bytes before the terminator. -/
def tohex (x : Nat) : List Nat :=
  (List.range 8).map (fun j => symbols.getD ((x >>> (4 * (7 - j))) &&& 0x0f) 0)

/-- `__neorv32_uart_touppercase len ptr`: walks at most `len` bytes, replacing
each byte in `'a'..'z'` (97..122) by that byte minus 32. -/
def touppercase : Nat → List Nat → List Nat
  | 0, l => l
  | _, [] => []
  | n + 1, c :: rest =>
    (if 97 ≤ c ∧ c ≤ 122 then c - 32 else c) :: touppercase n rest

/-- `neorv32_uart_puts UARTx s`: the byte stream sent for string `s`
(here `s` is the raw byte list; the loop stops at a NUL byte and sends
`'\r'` before every `'\n'`). -/
def neorv32_uart_puts : List Nat → List Nat
  | [] => []
  | c :: rest =>
    if c = 0 then []
    else if c = 10 then 13 :: c :: neorv32_uart_puts rest
    else c :: neorv32_uart_puts rest

/-- A variadic argument of `neorv32_uart_vprintf`, tagged with the type the
source reads it at via `va_arg`. -/
inductive Arg where
  | s : List Nat → Arg
  | c : Nat → Arg
  | i : Int → Arg
  | u : Nat → Arg
deriving DecidableEq

/-- `va_arg(args, char*)` (string contents before the NUL). -/
def argStr : Arg → List Nat
  | .s l => l
  | _ => []

/-- `va_arg(args, int)` narrowed later to a char. -/
def argChar : Arg → Nat
  | .c n => n
  | _ => 0

/-- `va_arg(args, int32_t)`. -/
def argInt : Arg → Int
  | .i n => n
  | _ => 0

/-- `va_arg(args, uint32_t)`. -/
def argUint : Arg → Nat
  | .u n => n
  | _ => 0

/-- Two's-complement wrap of an integer into the `int32_t` range
`[-2^31, 2^31)`; models 32-bit signed overflow of `n = -n`. -/
def wrap32 (n : Int) : Int := (n + 2147483648) % 4294967296 - 2147483648

/-- The C cast `(uint32_t)n` of an `int32_t` value. -/
def toU32 (n : Int) : Nat := (n % 4294967296).toNat

/-- `neorv32_uart_vprintf UARTx format args`: the byte stream sent.  The
first argument is the raw memory holding the format string: the scan loop
`while ((c = *format++))` stops at a NUL byte, but after a `'%'` the next
byte is consumed unconditionally (even a NUL), so scanning can continue past
the terminator; an empty list means the end of the modelled memory. -/
def neorv32_uart_vprintf : List Nat → List Arg → List Nat
  | [], _ => []
  | c :: rest, args =>
    if c = 0 then []
    else if c = 37 then
      match rest with
      | [] => [37]
      | d :: rest2 =>
        if d = 115 then -- 's'
          neorv32_uart_puts (argStr (args.headD (Arg.u 0))) ++
            neorv32_uart_vprintf rest2 args.tail
        else if d = 99 then -- 'c'
          argChar (args.headD (Arg.u 0)) % 256 :: neorv32_uart_vprintf rest2 args.tail
        else if d = 105 ∨ d = 100 then -- 'i', 'd'
          (let n := argInt (args.headD (Arg.u 0))
           (if n < 0 then [45] else []) ++
             neorv32_uart_puts (itoa (toU32 (if n < 0 then wrap32 (-n) else n)))) ++
            neorv32_uart_vprintf rest2 args.tail
        else if d = 117 then -- 'u'
          neorv32_uart_puts (itoa (argUint (args.headD (Arg.u 0)))) ++
            neorv32_uart_vprintf rest2 args.tail
        else if d = 120 ∨ d = 112 ∨ d = 88 then -- 'x', 'p', 'X'
          neorv32_uart_puts
            (if d = 88 then touppercase 11 (tohex (argUint (args.headD (Arg.u 0))))
             else tohex (argUint (args.headD (Arg.u 0)))) ++
            neorv32_uart_vprintf rest2 args.tail
        else if d = 37 then -- escaped percent sign
          37 :: neorv32_uart_vprintf rest2 args
        else -- unsupported format: emit '%' then the directive byte
          37 :: d :: neorv32_uart_vprintf rest2 args
    else if c = 10 then 13 :: c :: neorv32_uart_vprintf rest args
    else c :: neorv32_uart_vprintf rest args

/-- `neorv32_uart_printf` on a format string given as the bytes before its
NUL terminator (the terminator is appended here, mirroring a C string
literal). -/
def printfOut (fmt : List Nat) (args : List Arg) : List Nat :=
  neorv32_uart_vprintf (fmt ++ [0]) args

/-- The read loop of `neorv32_uart_scan`.  `input` is the byte sequence the
blocking `neorv32_uart_getc` delivers; `acc` is the buffer contents so far
(the C code tracks the same data via the `buffer` cursor and `length`);
`out` is the byte stream echoed so far.  Returns `none` when the input is
exhausted before a carriage return (the C code would block forever). -/
def scanLoop : List Nat → Nat → Bool → List Nat → List Nat → Option (List Nat × List Nat)
  | [], _, _, _, _ => none
  | c :: rest, max_size, echo, acc, out =>
    if c = 8 then -- BACKSPACE
      if acc.length ≠ 0 then
        scanLoop rest max_size echo acc.dropLast (out ++ if echo then [8, 32, 8] else [])
      else scanLoop rest max_size echo acc out
    else if c = 13 then some (acc, out) -- carriage return
    else if 32 ≤ c ∧ c ≤ 126 ∧ (acc.length : Int) < (max_size : Int) - 1 then
      scanLoop rest max_size echo (acc ++ [c]) (out ++ if echo then [c] else [])
    else scanLoop rest max_size echo acc out

/-- `neorv32_uart_scan UARTx buffer max_size echo` over an input byte
sequence: returns the caller-visible buffer bytes up to and including the
written terminator (`*buffer = '\0'`), the returned `length`, and the echoed
byte stream. -/
def neorv32_uart_scan (input : List Nat) (max_size : Nat) (echo : Bool) :
    Option (List Nat × Nat × List Nat) :=
  (scanLoop input max_size echo [] []).map (fun r => (r.1 ++ [0], r.1.length, r.2))

/-- The baud prescaler search loop of `neorv32_uart_setup`:
`while (baud_div >= 0x3ff) { if ((prsc_sel == 2) || (prsc_sel == 4))
baud_div >>= 3; else baud_div >>= 1; prsc_sel++; }`. -/
def findPrsc (prsc_sel baud_div : Nat) : Nat × Nat :=
  if _h : 0x3ff ≤ baud_div then
    findPrsc (prsc_sel + 1)
      (if prsc_sel = 2 ∨ prsc_sel = 4 then baud_div >>> 3 else baud_div >>> 1)
  else (prsc_sel, baud_div)
termination_by baud_div
decreasing_by
  by_cases h2 : prsc_sel = 2 ∨ prsc_sel = 4 <;>
    simp [h2, Nat.shiftRight_eq_div_pow] <;> omega

/-- The `(prsc_sel, baud_div)` pair computed by `neorv32_uart_setup` from the
system clock and target baud rate: `baud_div = clock / (2*baudrate)`
(32-bit product), then the prescaler search. -/
def setupPrsc (clock baudrate : Nat) : Nat × Nat :=
  findPrsc 0 (clock / ((2 * baudrate) % 4294967296))

/-- The prescaler field value `neorv32_uart_setup` actually ORs into the
control register: `(prsc_sel & 3U)` (before shifting to its position). -/
def setupPrscField (clock baudrate : Nat) : Nat :=
  (setupPrsc clock baudrate).1 &&& 3

/-- Modelled from the spec: the numeric values of the `UART_CTRL_*` bit
positions are defined in `neorv32_uart.h`, which is not under src/.  The spec
states that the low five bits of `irq_mask` map onto the five recognized
interrupt-enable bits, so the recognized window `0x1f << UART_CTRL_IRQ_RX_NEMPTY`
is taken to start at bit 0. -/
def UART_CTRL_IRQ_RX_NEMPTY : Nat := 0

/-- The interrupt-mask fragment `neorv32_uart_setup` ORs into the control
register: `irq_mask & (0x1fU << UART_CTRL_IRQ_RX_NEMPTY)`. -/
def irqFragment (irq_mask : Nat) : Nat :=
  irq_mask &&& (0x1f <<< UART_CTRL_IRQ_RX_NEMPTY)

/-! Parsing functions used only to state the claims (reading a decimal or
hexadecimal ASCII string back into a number, most significant digit first). -/

/-- Parse an ASCII decimal string (most significant digit first). -/
def parseDec (s : List Nat) : Nat :=
  s.foldl (fun a c => 10 * a + (c - 48)) 0

/-- Value of one lowercase-hex ASCII byte. -/
def hexVal (c : Nat) : Nat := if 97 ≤ c then c - 87 else c - 48

/-- Parse a lowercase ASCII hexadecimal string (most significant nibble
first). -/
def parseHex (s : List Nat) : Nat :=
  s.foldl (fun a c => 16 * a + hexVal c) 0

/-- Value of a little-endian digit-byte list under digit value map `v` and
base `b`. -/
def littleVal (b : Nat) (v : Nat → Nat) : List Nat → Nat
  | [] => 0
  | c :: r => v c + b * littleVal b v r

/-- Number of printable bytes (0x20..0x7e) before the first carriage return
of an input sequence. -/
def printableCount : List Nat → Nat
  | [] => 0
  | c :: r =>
    if c = 13 then 0
    else (if 32 ≤ c ∧ c ≤ 126 then 1 else 0) + printableCount r

/-- Whether a backspace byte occurs before the first carriage return of an
input sequence. -/
def bsBeforeCR : List Nat → Bool
  | [] => false
  | c :: r => if c = 13 then false else if c = 8 then true else bsBeforeCR r

/-! Helper lemmas for the radix converters. -/

theorem mod_pow_succ_eq (x b n : Nat) :
    x % b ^ (n + 1) = x % b ^ n + x / b ^ n % b * b ^ n := by
  conv_lhs => rw [pow_succ]
  rw [Nat.mod_mul]
  ring

theorem mod_pow_drop (x b a : Nat) :
    ∀ m, (∀ j, a ≤ j → j < a + m → x / b ^ j % b = 0) →
      x % b ^ (a + m) = x % b ^ a := by
  intro m
  induction m with
  | zero => simp
  | succ m ih =>
    intro h
    have e : a + (m + 1) = (a + m) + 1 := by omega
    rw [e, mod_pow_succ_eq, h (a + m) (by omega) (by omega)]
    simpa using ih (fun j hj hj2 => h j hj (by omega))

theorem numbers_getD (d : Nat) (h : d < 10) : numbers.getD d 0 = 48 + d := by
  interval_cases d <;> rfl

theorem itoaDigits_length (x n : Nat) : (itoaDigits x n).length = n := by
  induction n generalizing x with
  | zero => rfl
  | succ n ih => simp [itoaDigits, ih]

theorem itoaDigits_getD (n : Nat) : ∀ x j, j < n →
    (itoaDigits x n).getD j 0 = 48 + x / 10 ^ j % 10 := by
  induction n with
  | zero => intro x j h; omega
  | succ n ih =>
    intro x j hj
    cases j with
    | zero =>
      simp only [itoaDigits, List.getD_cons_zero, pow_zero, Nat.div_one]
      exact numbers_getD (x % 10) (Nat.mod_lt _ (by norm_num))
    | succ j =>
      simp only [itoaDigits, List.getD_cons_succ]
      rw [ih (x / 10) j (by omega), Nat.div_div_eq_div_mul]
      rw [show 10 * 10 ^ j = 10 ^ (j + 1) by rw [pow_succ]; ring]

theorem getD_set_ne (l : List Nat) (i j v : Nat) (h : i ≠ j) :
    (l.set i v).getD j 0 = l.getD j 0 := by
  simp [List.getD_eq_getElem?_getD, List.getElem?_set_ne h]

theorem blankLoop_cons_pos (buf : List Nat) (i : Nat) (h : buf.getD (i + 1) 0 = 48) :
    blankLoop buf (i + 1) = blankLoop (buf.set (i + 1) 0) i := by
  rw [blankLoop, if_pos h]

theorem blankLoop_cons_neg (buf : List Nat) (i : Nat) (h : ¬ buf.getD (i + 1) 0 = 48) :
    blankLoop buf (i + 1) = (buf, i + 1) := by
  rw [blankLoop, if_neg h]

theorem blankLoop_snd_le (i : Nat) : ∀ buf : List Nat, (blankLoop buf i).2 ≤ i := by
  induction i with
  | zero => intro buf; simp [blankLoop]
  | succ i ih =>
    intro buf
    by_cases h : buf.getD (i + 1) 0 = 48
    · rw [blankLoop_cons_pos buf i h]
      exact Nat.le_trans (ih _) (by omega)
    · rw [blankLoop_cons_neg buf i h]

theorem blankLoop_getD (i : Nat) : ∀ (buf : List Nat) (j : Nat),
    j ≤ (blankLoop buf i).2 →
    ((blankLoop buf i).1).getD j 0 = buf.getD j 0 := by
  induction i with
  | zero => intro buf j _; simp [blankLoop]
  | succ i ih =>
    intro buf j hj
    by_cases h : buf.getD (i + 1) 0 = 48
    · rw [blankLoop_cons_pos buf i h] at hj ⊢
      rw [ih _ j hj]
      exact getD_set_ne buf (i + 1) j 0
        (by have := Nat.le_trans hj (blankLoop_snd_le i _); omega)
    · rw [blankLoop_cons_neg buf i h]

theorem blankLoop_stop (i : Nat) : ∀ buf : List Nat,
    (blankLoop buf i).2 = 0 ∨ buf.getD ((blankLoop buf i).2) 0 ≠ 48 := by
  induction i with
  | zero => intro buf; simp [blankLoop]
  | succ i ih =>
    intro buf
    by_cases h : buf.getD (i + 1) 0 = 48
    · rw [blankLoop_cons_pos buf i h]
      rcases ih (buf.set (i + 1) 0) with h0 | hne
      · exact Or.inl h0
      · right
        intro hc
        apply hne
        rw [getD_set_ne buf (i + 1) _ 0 (by have := blankLoop_snd_le i (buf.set (i + 1) 0); omega)]
        exact hc
    · rw [blankLoop_cons_neg buf i h]
      exact Or.inr h

theorem blankLoop_blanked (i : Nat) : ∀ (buf : List Nat) (j : Nat),
    (blankLoop buf i).2 < j → j ≤ i → buf.getD j 0 = 48 := by
  induction i with
  | zero => intro buf j h1 h2; omega
  | succ i ih =>
    intro buf j h1 h2
    by_cases h : buf.getD (i + 1) 0 = 48
    · rcases Nat.lt_or_ge j (i + 1) with hj | hj
      · rw [blankLoop_cons_pos buf i h] at h1
        have := ih (buf.set (i + 1) 0) j h1 (by omega)
        rwa [getD_set_ne buf (i + 1) j 0 (by omega)] at this
      · have hje : j = i + 1 := by omega
        rw [hje]; exact h
    · rw [blankLoop_cons_neg buf i h] at h1
      omega

theorem revLoop_eq (buf : List Nat) : ∀ (i : Nat) (g : Nat → Nat),
    (∀ j, j ≤ i → buf.getD j 0 = g j) → (∀ j, j ≤ i → g j ≠ 0) →
    revLoop buf i = ((List.range (i + 1)).map g).reverse := by
  intro i
  induction i with
  | zero =>
    intro g hg hnz
    rw [revLoop, if_pos (by rw [hg 0 (le_refl 0)]; exact hnz 0 (le_refl 0))]
    rw [hg 0 (le_refl 0)]
    rfl
  | succ i ih =>
    intro g hg hnz
    have hstop : buf.getD (i + 1) 0 ≠ 0 := by
      rw [hg (i + 1) (le_refl _)]; exact hnz (i + 1) (le_refl _)
    rw [revLoop, if_pos hstop, List.range_succ, List.map_append, List.reverse_append]
    simp only [List.map_singleton, List.reverse_singleton, List.singleton_append]
    rw [ih g (fun j hj => hg j (by omega)) (fun j hj => hnz j (by omega)),
      hg (i + 1) (le_refl _)]

theorem foldl_reverse_littleVal (b : Nat) (v : Nat → Nat) :
    ∀ l : List Nat, (l.reverse).foldl (fun a c => b * a + v c) 0 = littleVal b v l := by
  intro l
  induction l with
  | nil => rfl
  | cons c r ih =>
    rw [List.reverse_cons, List.foldl_append, ih, littleVal]
    simp [Nat.add_comm]

theorem littleVal_append (b : Nat) (v : Nat → Nat) (c : Nat) :
    ∀ l, littleVal b v (l ++ [c]) = littleVal b v l + v c * b ^ l.length := by
  intro l
  induction l with
  | nil => simp [littleVal]
  | cons a r ih =>
    simp only [List.cons_append, littleVal, List.length_cons, List.append_eq, ih]
    ring

theorem littleVal_range_map (b : Nat) (v : Nat → Nat) (x : Nat) :
    ∀ (n : Nat) (g : Nat → Nat), (∀ j, j < n → v (g j) = x / b ^ j % b) →
    littleVal b v ((List.range n).map g) = x % b ^ n := by
  intro n
  induction n with
  | zero => intro g _; simp [littleVal, Nat.mod_one]
  | succ n ih =>
    intro g h
    rw [List.range_succ, List.map_append, List.map_singleton, littleVal_append,
      ih g (fun j hj => h j (by omega)), List.length_map, List.length_range,
      h n (by omega), mod_pow_succ_eq]

theorem itoa_eq (x : Nat) :
    itoa x = ((List.range ((blankLoop (itoaDigits x 10) 9).2 + 1)).map
      (fun j => 48 + x / 10 ^ j % 10)).reverse := by
  have hle := blankLoop_snd_le 9 (itoaDigits x 10)
  unfold itoa
  apply revLoop_eq
  · intro j hj
    rw [blankLoop_getD 9 (itoaDigits x 10) j hj]
    exact itoaDigits_getD 10 x j (by omega)
  · intro j _
    omega

theorem itoa_parse (x : Nat) (hx : x < 10 ^ 10) : parseDec (itoa x) = x := by
  have hle := blankLoop_snd_le 9 (itoaDigits x 10)
  rw [itoa_eq x]
  unfold parseDec
  rw [foldl_reverse_littleVal,
    littleVal_range_map 10 _ x ((blankLoop (itoaDigits x 10) 9).2 + 1) _
      (fun j _ => by omega)]
  have hzero : ∀ j, (blankLoop (itoaDigits x 10) 9).2 + 1 ≤ j → j < 10 →
      x / 10 ^ j % 10 = 0 := by
    intro j h1 h2
    have h48 := blankLoop_blanked 9 (itoaDigits x 10) j (by omega) (by omega)
    rw [itoaDigits_getD 10 x j (by omega)] at h48
    omega
  have hdrop := mod_pow_drop x 10 ((blankLoop (itoaDigits x 10) 9).2 + 1)
    (9 - (blankLoop (itoaDigits x 10) 9).2) (fun j hj hj2 => hzero j hj (by omega))
  rw [show (blankLoop (itoaDigits x 10) 9).2 + 1 +
      (9 - (blankLoop (itoaDigits x 10) 9).2) = 10 by omega] at hdrop
  rw [← hdrop, Nat.mod_eq_of_lt hx]

theorem itoa_length (x : Nat) : (itoa x).length ≤ 10 := by
  have hle := blankLoop_snd_le 9 (itoaDigits x 10)
  rw [itoa_eq x]
  simp
  omega

theorem itoa_digit_range (x : Nat) : ∀ b ∈ itoa x, 48 ≤ b ∧ b ≤ 57 := by
  rw [itoa_eq x]
  intro b hb
  rw [List.mem_reverse] at hb
  obtain ⟨j, _, rfl⟩ := List.mem_map.mp hb
  have : x / 10 ^ j % 10 < 10 := Nat.mod_lt _ (by norm_num)
  omega

theorem range_map_reverse_cons (g : Nat → Nat) (n : Nat) :
    ((List.range (n + 1)).map g).reverse = g n :: ((List.range n).map g).reverse := by
  rw [List.range_succ, List.map_append, List.reverse_append]
  simp

theorem itoa_head (x : Nat) (hx : x < 10 ^ 10) :
    itoa x = [48] ∨ (itoa x).headD 0 ≠ 48 := by
  have hle := blankLoop_snd_le 9 (itoaDigits x 10)
  rcases Nat.eq_zero_or_pos (blankLoop (itoaDigits x 10) 9).2 with h0 | hpos
  · have hzero : ∀ j, 1 ≤ j → j < 10 → x / 10 ^ j % 10 = 0 := by
      intro j h1 h2
      have h48 := blankLoop_blanked 9 (itoaDigits x 10) j (by omega) (by omega)
      rw [itoaDigits_getD 10 x j (by omega)] at h48
      omega
    have hdrop := mod_pow_drop x 10 1 9 (fun j hj hj2 => hzero j hj (by omega))
    have hx10 : x < 10 := by
      have := Nat.mod_eq_of_lt hx
      have hml : x % 10 ^ 1 < 10 ^ 1 := Nat.mod_lt _ (by norm_num)
      omega
    rcases Nat.eq_zero_or_pos x with hx0 | hxpos
    · left
      rw [itoa_eq x, h0, hx0]
      rfl
    · right
      rw [itoa_eq x, h0, range_map_reverse_cons]
      simp only [List.headD_cons, pow_zero, Nat.div_one]
      omega
  · right
    have hstop := blankLoop_stop 9 (itoaDigits x 10)
    rcases hstop with hs0 | hsne
    · omega
    · rw [itoaDigits_getD 10 x _ (by omega)] at hsne
      obtain ⟨k, hk⟩ : ∃ k, (blankLoop (itoaDigits x 10) 9).2 = k + 1 :=
        ⟨(blankLoop (itoaDigits x 10) 9).2 - 1, by omega⟩
      rw [itoa_eq x, hk, range_map_reverse_cons]
      simp only [List.headD_cons]
      rw [hk] at hsne
      omega

theorem shift_and_nibble (x k : Nat) : (x >>> (4 * k)) &&& 0x0f = x / 16 ^ k % 16 := by
  have h15 : (0x0f : Nat) = 2 ^ 4 - 1 := by norm_num
  rw [h15, Nat.and_pow_two_sub_one_eq_mod, Nat.shiftRight_eq_div_pow,
    Nat.pow_mul]

theorem tohex_eq (x : Nat) :
    tohex x = ((List.range 8).map (fun j => symbols.getD (x / 16 ^ j % 16) 0)).reverse := by
  unfold tohex
  simp only [shift_and_nibble]
  norm_num [List.range_succ]

theorem symbols_getD_hexVal (d : Nat) (h : d < 16) : hexVal (symbols.getD d 0) = d := by
  interval_cases d <;> rfl

theorem symbols_getD_range : ∀ d, d < 16 →
    (48 ≤ symbols.getD d 0 ∧ symbols.getD d 0 ≤ 57) ∨
    (97 ≤ symbols.getD d 0 ∧ symbols.getD d 0 ≤ 102) := by
  decide

theorem tohex_parse (x : Nat) (hx : x < 4294967296) : parseHex (tohex x) = x := by
  rw [tohex_eq x]
  unfold parseHex
  rw [foldl_reverse_littleVal,
    littleVal_range_map 16 hexVal x 8 (fun j => symbols.getD (x / 16 ^ j % 16) 0)
      (fun j _ => symbols_getD_hexVal (x / 16 ^ j % 16) (Nat.mod_lt _ (by norm_num)))]
  have : (16 : Nat) ^ 8 = 4294967296 := by norm_num
  rw [this, Nat.mod_eq_of_lt hx]

theorem tohex_length (x : Nat) : (tohex x).length = 8 := by
  rw [tohex_eq x]
  simp

theorem tohex_range (x : Nat) : ∀ b ∈ tohex x,
    (48 ≤ b ∧ b ≤ 57) ∨ (97 ≤ b ∧ b ≤ 102) := by
  rw [tohex_eq x]
  intro b hb
  rw [List.mem_reverse] at hb
  obtain ⟨j, _, rfl⟩ := List.mem_map.mp hb
  exact symbols_getD_range _ (Nat.mod_lt _ (by norm_num))

theorem puts_eq_self (l : List Nat) (h : ∀ b ∈ l, b ≠ 0 ∧ b ≠ 10) :
    neorv32_uart_puts l = l := by
  induction l with
  | nil => rfl
  | cons c r ih =>
    have hc := h c (List.mem_cons_self c r)
    rw [neorv32_uart_puts, if_neg hc.1, if_neg hc.2,
      ih (fun b hb => h b (List.mem_cons_of_mem c hb))]

theorem puts_itoa (x : Nat) : neorv32_uart_puts (itoa x) = itoa x := by
  apply puts_eq_self
  intro b hb
  have := itoa_digit_range x b hb
  omega

theorem puts_tohex (x : Nat) : neorv32_uart_puts (tohex x) = tohex x := by
  apply puts_eq_self
  intro b hb
  have := tohex_range x b hb
  omega

theorem touppercase_cons (n c : Nat) (r : List Nat) :
    touppercase (n + 1) (c :: r)
      = (if 97 ≤ c ∧ c ≤ 122 then c - 32 else c) :: touppercase n r := rfl

theorem touppercase_idem : ∀ (s : List Nat) (len : Nat),
    touppercase len (touppercase len s) = touppercase len s := by
  intro s
  induction s with
  | nil => intro len; cases len <;> rfl
  | cons c r ih =>
    intro len
    cases len with
    | zero => rfl
    | succ n =>
      by_cases h : 97 ≤ c ∧ c ≤ 122
      · rw [touppercase_cons, if_pos h, touppercase_cons, if_neg (by omega), ih n]
      · rw [touppercase_cons, if_neg h, touppercase_cons, if_neg h, ih n]

theorem touppercase_getD : ∀ (s : List Nat) (len i : Nat),
    (touppercase len s).getD i 0 =
      if i < len ∧ 97 ≤ s.getD i 0 ∧ s.getD i 0 ≤ 122
      then s.getD i 0 - 32 else s.getD i 0 := by
  intro s
  induction s with
  | nil =>
    intro len i
    cases len <;> simp [touppercase]
  | cons c r ih =>
    intro len i
    cases len with
    | zero =>
      rw [touppercase]
      rw [if_neg (by omega)]
    | succ n =>
      rw [touppercase_cons]
      cases i with
      | zero =>
        simp only [List.getD_cons_zero]
        by_cases h : 97 ≤ c ∧ c ≤ 122
        · rw [if_pos h, if_pos (by exact ⟨by omega, h⟩)]
        · rw [if_neg h, if_neg (by intro hc; exact h hc.2)]
      | succ i =>
        simp only [List.getD_cons_succ]
        rw [ih n i]
        by_cases h : i < n ∧ 97 ≤ r.getD i 0 ∧ r.getD i 0 ≤ 122
        · rw [if_pos h, if_pos (by exact ⟨by omega, h.2⟩)]
        · rw [if_neg h, if_neg (by intro hc; exact h ⟨by omega, hc.2⟩)]

theorem toU32_wrap_neg (n : Int) (h1 : -2147483648 ≤ n) (h2 : n < 0) :
    toU32 (wrap32 (-n)) = (-n).toNat := by
  unfold wrap32 toU32
  omega

theorem toU32_nonneg (n : Int) (h1 : 0 ≤ n) (h2 : n < 4294967296) :
    toU32 n = n.toNat := by
  unfold toU32
  omega

theorem scanLoop_bs_pos (rest : List Nat) (ms : Nat) (e : Bool) (acc out : List Nat)
    (h : acc.length ≠ 0) :
    scanLoop (8 :: rest) ms e acc out
      = scanLoop rest ms e acc.dropLast (out ++ if e then [8, 32, 8] else []) := by
  simp [scanLoop, h]

theorem scanLoop_bs_zero (rest : List Nat) (ms : Nat) (e : Bool) (out : List Nat) :
    scanLoop (8 :: rest) ms e [] out = scanLoop rest ms e [] out := by
  simp [scanLoop]

theorem scanLoop_cr (rest : List Nat) (ms : Nat) (e : Bool) (acc out : List Nat) :
    scanLoop (13 :: rest) ms e acc out = some (acc, out) := by
  simp [scanLoop]

theorem scanLoop_print (c : Nat) (rest : List Nat) (ms : Nat) (e : Bool)
    (acc out : List Nat) (h1 : 32 ≤ c) (h2 : c ≤ 126)
    (h3 : (acc.length : Int) < (ms : Int) - 1) :
    scanLoop (c :: rest) ms e acc out
      = scanLoop rest ms e (acc ++ [c]) (out ++ if e then [c] else []) := by
  have hc8 : c ≠ 8 := by omega
  have hc13 : c ≠ 13 := by omega
  simp [scanLoop, hc8, hc13, h1, h2, h3]

theorem scanLoop_skip (c : Nat) (rest : List Nat) (ms : Nat) (e : Bool)
    (acc out : List Nat) (h8 : c ≠ 8) (h13 : c ≠ 13)
    (h : ¬(32 ≤ c ∧ c ≤ 126 ∧ (acc.length : Int) < (ms : Int) - 1)) :
    scanLoop (c :: rest) ms e acc out = scanLoop rest ms e acc out := by
  simp only [scanLoop, if_neg h8, if_neg h13, if_neg h]

theorem scanLoop_terminates_bound : ∀ (input : List Nat), 13 ∈ input →
    ∀ (ms : Nat) (e : Bool) (acc out : List Nat), acc.length ≤ ms - 1 →
    ∃ accF outF, scanLoop input ms e acc out = some (accF, outF) ∧
      accF.length ≤ ms - 1 := by
  intro input
  induction input with
  | nil => intro h; simp at h
  | cons c rest ih =>
    intro hmem ms e acc out hacc
    by_cases hc13 : c = 13
    · subst hc13
      rw [scanLoop_cr]
      exact ⟨acc, out, rfl, hacc⟩
    · have hmem' : 13 ∈ rest := by
        rcases List.mem_cons.mp hmem with h | h
        · omega
        · exact h
      by_cases hc8 : c = 8
      · subst hc8
        rcases List.eq_nil_or_concat acc with hnil | _
        · subst hnil
          rw [scanLoop_bs_zero]
          exact ih hmem' ms e [] out (by simp)
        · by_cases ha : acc.length = 0
          · have : acc = [] := List.length_eq_zero.mp ha
            subst this
            rw [scanLoop_bs_zero]
            exact ih hmem' ms e [] out (by simp)
          · rw [scanLoop_bs_pos rest ms e acc out ha]
            apply ih hmem' ms e _ _
            rw [List.length_dropLast]
            omega
      · by_cases hpr : 32 ≤ c ∧ c ≤ 126 ∧ ((acc.length : Int) < (ms : Int) - 1)
        · rw [scanLoop_print c rest ms e acc out hpr.1 hpr.2.1 hpr.2.2]
          apply ih hmem' ms e _ _
          have := hpr.2.2
          simp only [List.length_append, List.length_cons, List.length_nil]
          omega
        · rw [scanLoop_skip c rest ms e acc out hc8 hc13 hpr]
          exact ih hmem' ms e acc out hacc

theorem scanLoop_nobs_len : ∀ (input : List Nat), 13 ∈ input →
    bsBeforeCR input = false →
    ∀ (ms : Nat) (e : Bool) (acc out : List Nat), acc.length ≤ ms - 1 →
    ∃ accF outF, scanLoop input ms e acc out = some (accF, outF) ∧
      accF.length = min (acc.length + printableCount input) (ms - 1) := by
  intro input
  induction input with
  | nil => intro h; simp at h
  | cons c rest ih =>
    intro hmem hbs ms e acc out hacc
    by_cases hc13 : c = 13
    · subst hc13
      rw [scanLoop_cr]
      refine ⟨acc, out, rfl, ?_⟩
      rw [printableCount, if_pos rfl]
      omega
    · have hmem' : 13 ∈ rest := by
        rcases List.mem_cons.mp hmem with h | h
        · omega
        · exact h
      by_cases hc8 : c = 8
      · exfalso
        subst hc8
        rw [bsBeforeCR, if_neg (by omega), if_pos rfl] at hbs
        simp at hbs
      · have hbs' : bsBeforeCR rest = false := by
          rw [bsBeforeCR, if_neg hc13, if_neg hc8] at hbs
          exact hbs
        have hpc : printableCount (c :: rest)
            = (if 32 ≤ c ∧ c ≤ 126 then 1 else 0) + printableCount rest := by
          rw [printableCount, if_neg hc13]
        by_cases hpr : 32 ≤ c ∧ c ≤ 126 ∧ ((acc.length : Int) < (ms : Int) - 1)
        · rw [scanLoop_print c rest ms e acc out hpr.1 hpr.2.1 hpr.2.2]
          obtain ⟨accF, outF, heq, hlen⟩ := ih hmem' hbs' ms e (acc ++ [c])
            (out ++ if e then [c] else [])
            (by simp only [List.length_append, List.length_cons, List.length_nil]
                have := hpr.2.2
                omega)
          refine ⟨accF, outF, heq, ?_⟩
          rw [hlen, hpc, if_pos ⟨hpr.1, hpr.2.1⟩]
          simp only [List.length_append, List.length_cons, List.length_nil]
          omega
        · rw [scanLoop_skip c rest ms e acc out hc8 hc13 hpr]
          obtain ⟨accF, outF, heq, hlen⟩ := ih hmem' hbs' ms e acc out hacc
          refine ⟨accF, outF, heq, ?_⟩
          rw [hlen, hpc]
          by_cases hp : 32 ≤ c ∧ c ≤ 126
          · have hfull : ¬((acc.length : Int) < (ms : Int) - 1) := by tauto
            rw [if_pos hp]
            omega
          · rw [if_neg hp]
            omega

theorem findPrsc_step (p b : Nat) (h : 0x3ff ≤ b) :
    findPrsc p b = findPrsc (p + 1) (if p = 2 ∨ p = 4 then b >>> 3 else b >>> 1) := by
  rw [findPrsc]
  simp [h]

theorem findPrsc_done (p b : Nat) (h : b < 0x3ff) : findPrsc p b = (p, b) := by
  rw [findPrsc]
  simp [Nat.not_le.mpr h]

/-! The claims. -/

/-- Claim C1: the decimal converter, applied to any unsigned 32-bit value `x`,
produces a string of ASCII digits (zero-terminated in the source) that parses
back to `x`, has no leading zero digit unless the string is exactly "0"
(byte 48), has length at most 10 digits, and for `x = 0` yields exactly "0",
not an empty string. -/
theorem c1_decimal_converter (x : Nat) (hx : x < 4294967296) :
    parseDec (itoa x) = x ∧
    itoa 0 = [48] ∧
    (itoa x = [48] ∨ (itoa x).headD 0 ≠ 48) ∧
    (itoa x).length ≤ 10 ∧
    (∀ b ∈ itoa x, 48 ≤ b ∧ b ≤ 57) := by
  have h10 : x < 10 ^ 10 := lt_of_lt_of_le hx (by norm_num)
  exact ⟨itoa_parse x h10, by decide, itoa_head x h10, itoa_length x,
    itoa_digit_range x⟩

/-- Witness for C1 at the concrete input 123. -/
theorem c1_decimal_converter_witness :
    123 < 4294967296 ∧ parseDec (itoa 123) = 123 ∧ (itoa 123).length ≤ 10 :=
  ⟨by norm_num, (c1_decimal_converter 123 (by norm_num)).1,
    (c1_decimal_converter 123 (by norm_num)).2.2.2.1⟩

/-- Claim C2: the hex converter, applied to any unsigned 32-bit value `x`,
produces exactly 8 lowercase hexadecimal ASCII digits, most significant
nibble first, zero padded, that parse back to `x`; in particular
`tohex 0` is "00000000". -/
theorem c2_hex_converter (x : Nat) (hx : x < 4294967296) :
    (tohex x).length = 8 ∧
    parseHex (tohex x) = x ∧
    (∀ b ∈ tohex x, (48 ≤ b ∧ b ≤ 57) ∨ (97 ≤ b ∧ b ≤ 102)) ∧
    tohex 0 = [48, 48, 48, 48, 48, 48, 48, 48] :=
  ⟨tohex_length x, tohex_parse x hx, tohex_range x, by decide⟩

/-- Witness for C2 at the concrete input 255. -/
theorem c2_hex_converter_witness :
    255 < 4294967296 ∧ parseHex (tohex 255) = 255 ∧ (tohex 255).length = 8 :=
  ⟨by norm_num, (c2_hex_converter 255 (by norm_num)).2.1,
    (c2_hex_converter 255 (by norm_num)).1⟩

/-- Claim C3: the format engine emits the documented expansion of each
directive and passes unknown directives through verbatim; byte values:
37 = percent, 45 = minus, 113 = letter q, 10 = line feed, 13 = carriage
return.  The concrete cases are the spec's examples ("%d" with -5 gives
"-5", "%u" with 5 gives "5", "%x" with 255 gives "000000ff", "%X" with 255
gives "000000FF", "%%" gives "%", "%q" gives "%q", "a\n b" gives
"a\r\n b"), followed by the general unknown-directive passthrough and the
general non-directive copy rule with LF expanded to CRLF. -/
theorem c3_format_engine :
    printfOut [37, 100] [Arg.i (-5)] = [45, 53] ∧
    printfOut [37, 117] [Arg.u 5] = [53] ∧
    printfOut [37, 120] [Arg.u 255] = [48, 48, 48, 48, 48, 48, 102, 102] ∧
    printfOut [37, 88] [Arg.u 255] = [48, 48, 48, 48, 48, 48, 70, 70] ∧
    printfOut [37, 37] [] = [37] ∧
    printfOut [37, 113] [] = [37, 113] ∧
    printfOut [97, 10, 98] [] = [97, 13, 10, 98] ∧
    (∀ (d : Nat) (rest : List Nat) (args : List Arg), d ≠ 0 →
      d ∉ ([115, 99, 105, 100, 117, 120, 112, 88, 37] : List Nat) →
      neorv32_uart_vprintf (37 :: d :: rest) args
        = 37 :: d :: neorv32_uart_vprintf rest args) ∧
    (∀ (ch : Nat) (rest : List Nat) (args : List Arg), ch ≠ 0 → ch ≠ 37 →
      neorv32_uart_vprintf (ch :: rest) args
        = (if ch = 10 then [13, ch] else [ch]) ++ neorv32_uart_vprintf rest args) := by
  refine ⟨by decide, by decide, by decide, by decide, by decide, by decide,
    by decide, ?_, ?_⟩
  · intro d rest args h0 hmem
    simp only [List.mem_cons, List.not_mem_nil, or_false, not_or] at hmem
    obtain ⟨h115, h99, h105, h100, h117, h120, h112, h88, h37⟩ := hmem
    simp [neorv32_uart_vprintf, h115, h99, h105, h100, h117, h120, h112, h88, h37]
  · intro ch rest args h0 h37
    rw [neorv32_uart_vprintf.eq_def]
    simp only [if_neg h0, if_neg h37]
    by_cases h10 : ch = 10
    · rw [if_pos h10, h10]
      rfl
    · rw [if_neg h10, if_neg h10]
      rfl

/-- Witness for C3: the general passthrough and copy rules applied at
concrete inputs (directive byte 113 = letter q, ordinary byte 97 = letter a). -/
theorem c3_format_engine_witness :
    neorv32_uart_vprintf [37, 113] [] = 37 :: 113 :: neorv32_uart_vprintf [] [] ∧
    neorv32_uart_vprintf [97] [] = [97] ++ neorv32_uart_vprintf [] [] :=
  ⟨c3_format_engine.2.2.2.2.2.2.2.1 113 [] [] (by norm_num) (by decide),
    by
      have h := c3_format_engine.2.2.2.2.2.2.2.2 97 [] [] (by norm_num) (by norm_num)
      simpa using h⟩

/-- Claim C4: for every negative signed 32-bit argument `n`, the percent-d
directive emits a minus sign (byte 45) followed by the decimal representation
of the negated magnitude of `n`, including the minimum representable value
-2147483648 (whose negation wraps in 32-bit two's complement arithmetic to
itself; the unsigned reinterpretation is then 2147483648, the correct
magnitude). -/
theorem c4_negative_decimal (n : Int) (h1 : -2147483648 ≤ n) (h2 : n < 0) :
    printfOut [37, 100] [Arg.i n] = 45 :: itoa ((-n).toNat) ∧
    parseDec (itoa ((-n).toNat)) = (-n).toNat := by
  constructor
  · show neorv32_uart_vprintf [37, 100, 0] [Arg.i n] = _
    rw [neorv32_uart_vprintf.eq_def]
    norm_num
    simp only [argInt]
    rw [if_pos h2, if_pos h2, toU32_wrap_neg n h1 h2, puts_itoa]
    simp [neorv32_uart_vprintf]
  · exact itoa_parse _ (lt_of_lt_of_le (by omega : (-n).toNat < 4294967296)
      (by norm_num))

/-- Witness for C4 at the minimum representable signed value. -/
theorem c4_negative_decimal_witness :
    printfOut [37, 100] [Arg.i (-2147483648)] = 45 :: itoa 2147483648 := by
  have h := (c4_negative_decimal (-2147483648) (by norm_num) (by norm_num)).1
  simpa using h

/-- Claim C5: the line scanner on input bytes "ab", backspace, "c", carriage
return (97, 98, 8, 99, 13) with echo off and capacity 10 returns 2 with the
buffer holding "ac" plus the terminator; in general a backspace with a
non-empty buffer removes the last accepted character and decrements the
accepted length by one, and a backspace with an empty buffer changes
nothing. -/
theorem c5_line_scanner :
    neorv32_uart_scan [97, 98, 8, 99, 13] 10 false = some ([97, 99, 0], 2, []) ∧
    (∀ (rest : List Nat) (ms : Nat) (e : Bool) (acc out : List Nat), acc ≠ [] →
      scanLoop (8 :: rest) ms e acc out
        = scanLoop rest ms e acc.dropLast (out ++ if e then [8, 32, 8] else []) ∧
      acc.dropLast.length = acc.length - 1) ∧
    (∀ (rest : List Nat) (ms : Nat) (e : Bool) (out : List Nat),
      scanLoop (8 :: rest) ms e [] out = scanLoop rest ms e [] out) := by
  refine ⟨by decide, ?_, fun rest ms e out => scanLoop_bs_zero rest ms e out⟩
  intro rest ms e acc out hne
  have hl : acc.length ≠ 0 := fun h => hne (List.length_eq_zero.mp h)
  exact ⟨scanLoop_bs_pos rest ms e acc out hl, List.length_dropLast acc⟩

/-- Witness for C5: the backspace rule applied with the non-empty buffer
holding one byte 97. -/
theorem c5_line_scanner_witness :
    scanLoop (8 :: [13]) 5 false [97] []
      = scanLoop [13] 5 false ([97] : List Nat).dropLast
          ([] ++ if false then [8, 32, 8] else []) :=
  (c5_line_scanner.2.1 [13] 5 false [97] [] (by simp)).1

/-- Counterexample for C6 as stated: the input 97, 98, 8, 8, 99, 13 ends in
a carriage return and contains 3 printable bytes before it, more than
capacity - 1 = 2 for capacity 3, yet the scanner returns length 1 (the two
backspaces emptied the buffer before byte 99 was accepted), not
capacity - 1. -/
theorem c6_counterexample :
    ([97, 98, 8, 8, 99, 13] : List Nat).getLast? = some 13 ∧
    3 - 1 < printableCount [97, 98, 8, 8, 99, 13] ∧
    neorv32_uart_scan [97, 98, 8, 8, 99, 13] 3 false = some ([99, 0], 1, []) ∧
    (1 : Nat) ≠ 3 - 1 := by
  refine ⟨by decide, by decide, by decide, by decide⟩

/-- Claim C6, amended: for every input byte sequence ending in a carriage
return and every capacity, the scanner terminates, writes at most
capacity - 1 bytes excluding the terminator, writes the terminator byte at
the final write position, returns the accepted length, and - provided no
backspace byte occurs before the carriage return - when the input holds more
than capacity - 1 printable characters before the carriage return, the
excess is dropped and the returned length is exactly capacity - 1. -/
theorem c6_scan_invariants (input : List Nat) (ms : Nat) (e : Bool)
    (hcr : input.getLast? = some 13) :
    ∃ buf len out, neorv32_uart_scan input ms e = some (buf, len, out) ∧
      len ≤ ms - 1 ∧
      buf.length = len + 1 ∧
      buf.getLast? = some 0 ∧
      (bsBeforeCR input = false → ms - 1 < printableCount input →
        len = ms - 1) := by
  have hmem : (13 : Nat) ∈ input := List.mem_of_mem_getLast? hcr
  obtain ⟨accF, outF, heq, hbound⟩ :=
    scanLoop_terminates_bound input hmem ms e [] [] (by simp)
  refine ⟨accF ++ [0], accF.length, outF, ?_, hbound, by simp, by simp, ?_⟩
  · unfold neorv32_uart_scan
    rw [heq]
    rfl
  · intro hbs hpc
    obtain ⟨accF2, outF2, heq2, hlen2⟩ :=
      scanLoop_nobs_len input hmem hbs ms e [] [] (by simp)
    rw [heq] at heq2
    have haeq : accF = accF2 := by
      have := Option.some.inj heq2
      exact congrArg Prod.fst this
    rw [haeq, hlen2]
    simp only [List.length_nil, Nat.zero_add]
    omega

/-- Witness for C6 (amended) on the overlong backspace-free input 97, 98,
99, 13 with capacity 3. -/
theorem c6_scan_invariants_witness :
    ∃ buf len out,
      neorv32_uart_scan [97, 98, 99, 13] 3 false = some (buf, len, out) ∧
      len ≤ 3 - 1 ∧
      buf.length = len + 1 ∧
      buf.getLast? = some 0 ∧
      (bsBeforeCR [97, 98, 99, 13] = false →
        3 - 1 < printableCount [97, 98, 99, 13] → len = 3 - 1) :=
  c6_scan_invariants [97, 98, 99, 13] 3 false (by decide)

/-- Claim C7: in the setup call, the low 5 bits of the `irq_mask` argument
pass through unchanged into the interrupt-mask fragment ORed into the
control register, and all other bits of `irq_mask` are masked off before
being written.  The fragment is `irq_mask & (0x1f << UART_CTRL_IRQ_RX_NEMPTY)`
with the window position modelled from the spec (see
`UART_CTRL_IRQ_RX_NEMPTY`). -/
theorem c7_irq_mask_window (irq_mask i : Nat) :
    (i < 5 → (irqFragment irq_mask).testBit i = irq_mask.testBit i) ∧
    (5 ≤ i → (irqFragment irq_mask).testBit i = false) := by
  have hfrag : irqFragment irq_mask = irq_mask % 2 ^ 5 := by
    have h31 : (0x1f <<< UART_CTRL_IRQ_RX_NEMPTY : Nat) = 2 ^ 5 - 1 := by decide
    rw [irqFragment, h31, Nat.and_pow_two_sub_one_eq_mod]
  constructor
  · intro hi
    rw [hfrag, Nat.testBit_mod_two_pow]
    simp [hi]
  · intro hi
    rw [hfrag, Nat.testBit_mod_two_pow]
    simp [Nat.not_lt.mpr hi]

/-- Witness for C7: bit 3 of the mask value 9 passes through; bit 7 of the
all-ones mask is cleared. -/
theorem c7_irq_mask_window_witness :
    (irqFragment 9).testBit 3 = (9 : Nat).testBit 3 ∧
    (irqFragment 4294967295).testBit 7 = false :=
  ⟨(c7_irq_mask_window 9 3).1 (by norm_num),
    (c7_irq_mask_window 4294967295 7).2 (by norm_num)⟩

/-- Claim C8 evaluated at the failing input: with a 100 MHz system clock and
target baud 300, the raw divisor is 166666 and the prescaler search yields
prescaler-select 5 with divisor 325 - but the source masks the prescaler
select with `3U` (two bits) before writing it into the control register, so
the written prescaler field is 1, not the full 3-bit prescaler-select 5
claimed by the spec. -/
theorem c8_prescaler_truncated :
    setupPrsc 100000000 300 = (5, 325) ∧
    setupPrscField 100000000 300 = 1 ∧
    setupPrscField 100000000 300 ≠ (setupPrsc 100000000 300).1 := by
  have h : setupPrsc 100000000 300 = (5, 325) := by
    have e0 : (100000000 : Nat) / ((2 * 300) % 4294967296) = 166666 := by norm_num
    rw [setupPrsc, e0]
    rw [findPrsc_step 0 166666 (by norm_num)]
    norm_num [Nat.shiftRight_eq_div_pow]
    rw [findPrsc_step 1 83333 (by norm_num)]
    norm_num [Nat.shiftRight_eq_div_pow]
    rw [findPrsc_step 2 41666 (by norm_num)]
    norm_num [Nat.shiftRight_eq_div_pow]
    rw [findPrsc_step 3 5208 (by norm_num)]
    norm_num [Nat.shiftRight_eq_div_pow]
    rw [findPrsc_step 4 2604 (by norm_num)]
    norm_num [Nat.shiftRight_eq_div_pow]
    rw [findPrsc_done 5 325 (by norm_num)]
  refine ⟨h, ?_, ?_⟩
  · rw [setupPrscField, h]
    decide
  · rw [setupPrscField, h]
    decide

/-- Claim C9: the case-fold pass is idempotent for every byte string and
length bound, and byte-for-byte it maps exactly the ASCII lowercase letters
(97..122) within the length bound to their uppercase counterparts
(value - 32, i.e. 65..90) and leaves every other byte unchanged. -/
theorem c9_casefold (len : Nat) (s : List Nat) :
    touppercase len (touppercase len s) = touppercase len s ∧
    ∀ i, (touppercase len s).getD i 0 =
      if i < len ∧ 97 ≤ s.getD i 0 ∧ s.getD i 0 ≤ 122
      then s.getD i 0 - 32 else s.getD i 0 :=
  ⟨touppercase_idem s len, fun i => touppercase_getD s len i⟩

/-- Claim C10: a lone percent sign directly before the string terminator
makes the engine consume the terminating NUL as the directive byte, emit
the two bytes percent and NUL, and continue scanning past the end of the
format string (out-of-bounds in the source; over the list embedding,
scanning continues on whatever follows the terminator).  In particular
`printf` of the one-byte format "%" emits percent and NUL and nothing
else. -/
theorem c10_percent_before_nul (tail : List Nat) (args : List Arg) :
    neorv32_uart_vprintf (37 :: 0 :: tail) args
      = 37 :: 0 :: neorv32_uart_vprintf tail args ∧
    printfOut [37] args = [37, 0] := by
  constructor
  · simp [neorv32_uart_vprintf]
  · show neorv32_uart_vprintf [37, 0] args = [37, 0]
    simp [neorv32_uart_vprintf]
